import Mathlib

/-!
Verification of the Collatz exploration repository: a memoized Collatz
sequence generator (`main.py`) and a rational linear Diophantine solver
(`modular_integer_solver.py`).  Python integers are embedded as `Int`;
Python `//` and `%` are floor division, i.e. `Int.fdiv` and `Int.fmod`,
and operations that can raise `ZeroDivisionError` or `ValueError` return
`Except PyErr`.
-/

namespace CollatzRepo

/-- The two kinds of exceptions the solver module can raise:
`ZeroDivisionError` from `//` or `%` with zero divisor, and the
`ValueError("No modular inverse exists; no solutions possible.")`
raised by `find_solution_equation`. -/
inductive PyErr where
  | zeroDivision
  | noModularInverse
deriving DecidableEq, Repr

/-- Python `a % b`: floor modulus, `ZeroDivisionError` when `b == 0`. -/
def pymod (a b : Int) : Except PyErr Int :=
  if b = 0 then .error .zeroDivision else .ok (Int.fmod a b)

/-- Python `a // b`: floor division, `ZeroDivisionError` when `b == 0`. -/
def pydiv (a b : Int) : Except PyErr Int :=
  if b = 0 then .error .zeroDivision else .ok (Int.fdiv a b)

/-- For a negative divisor, `Int.fmod` lands in `(b, 0]`. -/
theorem fmod_bounds_of_neg (a : Int) {b : Int} (hb : b < 0) :
    b < Int.fmod a b ∧ Int.fmod a b ≤ 0 := by
  match a, b with
  | _, Int.ofNat n =>
      exact absurd hb (by exact Int.not_lt.mpr (Int.ofNat_nonneg n))
  | Int.ofNat 0, Int.negSucc n =>
      constructor <;> simp [Int.fmod] <;> omega
  | Int.ofNat (Nat.succ m), Int.negSucc n =>
      have hmod : m % (n + 1) < n + 1 := Nat.mod_lt _ (Nat.succ_pos n)
      have h1 : Int.fmod (Int.ofNat (Nat.succ m)) (Int.negSucc n)
          = Int.subNatNat (m % Nat.succ n) n := rfl
      rw [h1, Int.subNatNat_eq_coe, Int.negSucc_eq]
      simp only [Nat.succ_eq_add_one]
      omega
  | Int.negSucc m, Int.negSucc n =>
      have hmod : (m + 1) % (n + 1) < n + 1 := Nat.mod_lt _ (Nat.succ_pos n)
      have h1 : Int.fmod (Int.negSucc m) (Int.negSucc n)
          = -Int.ofNat (Nat.succ m % Nat.succ n) := rfl
      rw [h1, Int.negSucc_eq, Int.ofNat_eq_natCast]
      simp only [Nat.succ_eq_add_one]
      omega

/-- `Int.fmod` shrinks in absolute value, which makes the Euclidean
recursion terminate. -/
theorem fmod_natAbs_lt (a : Int) {b : Int} (hb : b ≠ 0) :
    (Int.fmod a b).natAbs < b.natAbs := by
  rcases lt_or_gt_of_ne hb with hneg | hpos
  · have h := fmod_bounds_of_neg a hneg
    omega
  · have h1 : 0 ≤ Int.fmod a b := Int.fmod_nonneg' a hpos
    have h2 : Int.fmod a b < b := Int.fmod_lt_of_pos a hpos
    omega

/-- Embedding of `extended_gcd(a, b)` from `modular_integer_solver.py`:
returns `(g, x, y)` with `a*x + b*y = g`, recursing on `(b, a % b)`. -/
def extended_gcd (a b : Int) : Int × Int × Int :=
  if h : b = 0 then (a, 1, 0)
  else
    let r := extended_gcd b (Int.fmod a b)
    (r.1, r.2.2, r.2.1 - Int.fdiv a b * r.2.2)
termination_by b.natAbs
decreasing_by exact fmod_natAbs_lt a h

/-- Embedding of `lcm(a, b) = abs(a * b) // gcd(a, b)`. -/
def lcm (a b : Int) : Except PyErr Int :=
  pydiv ((a * b).natAbs : Int) (Int.gcd a b : Int)

/-- Embedding of `modular_inverse(a, m)`: `-1` when the gcd reported by
`extended_gcd` is not `1`, otherwise `x % m` (which is a
`ZeroDivisionError` when `m == 0`). -/
def modular_inverse (a m : Int) : Except PyErr Int :=
  let r := extended_gcd a m
  if r.1 ≠ 1 then .ok (-1) else pymod r.2.1 m

/-- The `for c in range(0, 6)` loop of `find_integer_solutions`: for each
`c` it computes `y = y_initial + c * delta_y`, `x = (m*y - r_prime) // p_prime`,
and keeps the pair when `x > 0 and y > 0`. -/
def gen_solutions (m r_prime p_prime y_initial delta_y : Int) :
    List Nat → Except PyErr (List (Int × Int))
  | [] => .ok []
  | c :: cs => do
    let y := y_initial + (c : Int) * delta_y
    let x ← pydiv (m * y - r_prime) p_prime
    let rest ← gen_solutions m r_prime p_prime y_initial delta_y cs
    pure (if x > 0 ∧ y > 0 then (x, y) :: rest else rest)

/-- Embedding of `find_integer_solutions(a_num, a_den, b_num, b_den)`. -/
def find_integer_solutions (a_num a_den b_num b_den : Int) :
    Except PyErr (List (Int × Int)) := do
  let m ← lcm a_den b_den
  let p_prime ← pydiv (m * a_num) a_den
  let r_prime ← pydiv (m * b_num) b_den
  let inv ← modular_inverse m (p_prime.natAbs : Int)
  let t1 ← pymod r_prime (p_prime.natAbs : Int)
  let y_initial ← pymod (inv * t1) (p_prime.natAbs : Int)
  let delta_y ← pydiv (p_prime.natAbs : Int) (Int.gcd m p_prime : Int)
  let _delta_x ← pydiv m (Int.gcd m p_prime : Int)
  gen_solutions m r_prime p_prime y_initial delta_y (List.range 6)

/-- Embedding of `find_solution_equation(a_num, a_den, b_num, b_den)`,
which returns the two parametric-equation strings `(x_general, y_general)`
and raises the typed `ValueError` when `modular_inverse` reports `-1`. -/
def find_solution_equation (a_num a_den b_num b_den : Int) :
    Except PyErr (String × String) := do
  let m ← lcm a_den b_den
  let p_prime ← pydiv (m * a_num) a_den
  let r_prime ← pydiv (m * b_num) b_den
  let g : Int := (Int.gcd m (p_prime.natAbs : Int) : Int)
  let delta_y ← pydiv (p_prime.natAbs : Int) g
  let _delta_x ← pydiv m g
  let mod_inverse ← modular_inverse m (p_prime.natAbs : Int)
  if mod_inverse = -1 then
    .error .noModularInverse
  else do
    let t1 ← pymod r_prime (p_prime.natAbs : Int)
    let y_initial ← pymod (mod_inverse * t1) (p_prime.natAbs : Int)
    let y_general := "y = " ++ toString y_initial ++ " + k * " ++ toString delta_y
    let x_general := "x = (" ++ toString m ++ " * y - " ++ toString r_prime
      ++ ") / " ++ toString p_prime
    pure (x_general, y_general)

/-! ### Correctness of the extended Euclidean algorithm -/

/-- Bezout identity for the embedded `extended_gcd`. -/
theorem extended_gcd_bezout (a b : Int) :
    a * (extended_gcd a b).2.1 + b * (extended_gcd a b).2.2 = (extended_gcd a b).1 := by
  induction a, b using extended_gcd.induct with
  | case1 a =>
      simp [extended_gcd]
  | case2 a b hb ih =>
      rw [extended_gcd, dif_neg hb]
      show a * (extended_gcd b (Int.fmod a b)).2.2 +
        b * ((extended_gcd b (Int.fmod a b)).2.1
          - Int.fdiv a b * (extended_gcd b (Int.fmod a b)).2.2)
        = (extended_gcd b (Int.fmod a b)).1
      have hfm : Int.fmod a b = a - b * Int.fdiv a b := Int.fmod_def a b
      linear_combination ih - (extended_gcd b (Int.fmod a b)).2.2 * hfm

/-- One step of the Euclidean recursion preserves the gcd. -/
theorem gcd_emod_step {a b : Int} (ha : 0 ≤ a) (hb : 0 < b) :
    Int.gcd b (a % b) = Int.gcd a b := by
  obtain ⟨a', rfl⟩ := Int.eq_ofNat_of_zero_le ha
  obtain ⟨b', rfl⟩ := Int.eq_ofNat_of_zero_le (le_of_lt hb)
  have hcast : (a' : Int) % (b' : Int) = ((a' % b' : Nat) : Int) := by
    rw [Int.natCast_mod]
  rw [hcast]
  simp only [Int.gcd_natCast_natCast]
  rw [Nat.gcd_comm b' (a' % b'), ← Nat.gcd_rec, Nat.gcd_comm]

/-- On nonnegative inputs (the only ones the solver passes), the first
component returned by `extended_gcd` is the gcd. -/
theorem extended_gcd_fst : ∀ (a b : Int), 0 ≤ a → 0 ≤ b →
    (extended_gcd a b).1 = (Int.gcd a b : Int) := by
  intro a b
  induction a, b using extended_gcd.induct with
  | case1 a =>
      intro ha _
      simp [extended_gcd, Int.gcd_zero_right, Int.natAbs_of_nonneg ha]
  | case2 a b hb' ih =>
      intro ha hb
      have hbpos : 0 < b := lt_of_le_of_ne hb (Ne.symm hb')
      have hf0 : 0 ≤ Int.fmod a b := Int.fmod_nonneg' a hbpos
      rw [extended_gcd, dif_neg hb']
      show (extended_gcd b (Int.fmod a b)).1 = _
      rw [ih hb hf0, Int.fmod_eq_emod a hb, gcd_emod_step ha hbpos]

end CollatzRepo

namespace CollatzRepo

theorem pymod_ok {a b : Int} (hb : b ≠ 0) : pymod a b = .ok (Int.fmod a b) := by
  rw [pymod, if_neg hb]

theorem pydiv_ok {a b : Int} (hb : b ≠ 0) : pydiv a b = .ok (Int.fdiv a b) := by
  rw [pydiv, if_neg hb]

theorem pydiv_ok_of_dvd {a b : Int} (hb : b ≠ 0) (h : b ∣ a) :
    pydiv a b = .ok (a / b) := by
  rw [pydiv, if_neg hb, Int.fdiv_eq_ediv_of_dvd h]

/-- `lcm` on positive inputs returns the mathematical lcm. -/
theorem lcm_ok {a b : Int} (ha : 0 < a) (hb : 0 < b) :
    lcm a b = .ok (Int.lcm a b : Int) := by
  have hg : (Int.gcd a b : Int) ≠ 0 := by
    simp only [ne_eq, Int.natCast_eq_zero, Int.gcd_eq_zero_iff, not_and]
    intro h; omega
  rw [lcm, pydiv, if_neg hg,
    Int.fdiv_eq_ediv _ (Int.natCast_nonneg _), Int.natAbs_mul]
  rw [← Int.ofNat_ediv]
  rfl

theorem dvd_lcm_left_int (a b : Int) : a ∣ (Int.lcm a b : Int) := by
  rw [Int.lcm_def]
  exact Int.natAbs_dvd.mp (Int.natCast_dvd_natCast.mpr (Nat.dvd_lcm_left _ _))

theorem dvd_lcm_right_int (a b : Int) : b ∣ (Int.lcm a b : Int) := by
  rw [Int.lcm_def]
  exact Int.natAbs_dvd.mp (Int.natCast_dvd_natCast.mpr (Nat.dvd_lcm_right _ _))

theorem lcm_pos_int {a b : Int} (ha : a ≠ 0) (hb : b ≠ 0) :
    0 < (Int.lcm a b : Int) := by
  rw [Int.lcm_def]
  have : Nat.lcm a.natAbs b.natAbs ≠ 0 :=
    Nat.lcm_ne_zero (by simpa using ha) (by simpa using hb)
  omega

end CollatzRepo

namespace CollatzRepo

theorem except_bind_ok {α β : Type} (x : Except PyErr α) (f : α → Except PyErr β) (b : β) :
    (x >>= f) = .ok b ↔ ∃ a, x = .ok a ∧ f a = .ok b := by
  cases x <;> simp [Bind.bind, Except.bind]

theorem except_bind_err {α β : Type} (x : Except PyErr α) (f : α → Except PyErr β) (e : PyErr) :
    (x >>= f) = .error e ↔ x = .error e ∨ ∃ a, x = .ok a ∧ f a = .error e := by
  cases x <;> simp [Bind.bind, Except.bind]

theorem pydiv_err {a b : Int} {e : PyErr} (h : pydiv a b = .error e) : e = .zeroDivision := by
  rw [pydiv] at h
  split at h
  · exact (Except.error.inj h).symm
  · exact absurd h (by simp)

theorem pymod_err {a b : Int} {e : PyErr} (h : pymod a b = .error e) : e = .zeroDivision := by
  rw [pymod] at h
  split at h
  · exact (Except.error.inj h).symm
  · exact absurd h (by simp)

theorem lcm_err {a b : Int} {e : PyErr} (h : lcm a b = .error e) : e = .zeroDivision :=
  pydiv_err h

theorem modular_inverse_err {a m : Int} {e : PyErr}
    (h : modular_inverse a m = .error e) : e = .zeroDivision := by
  rw [modular_inverse] at h
  split at h
  · exact absurd h (by simp)
  · exact pymod_err h

/-- Everything `find_integer_solutions` returns comes out of the final
`for` loop; this exposes every intermediate value of the computation. -/
theorem find_integer_solutions_ok_elim {a_num a_den b_num b_den : Int}
    {l : List (Int × Int)}
    (h : find_integer_solutions a_num a_den b_num b_den = .ok l) :
    ∃ m p r inv t1 y0 dy,
      lcm a_den b_den = .ok m ∧
      pydiv (m * a_num) a_den = .ok p ∧
      pydiv (m * b_num) b_den = .ok r ∧
      modular_inverse m (p.natAbs : Int) = .ok inv ∧
      pymod r (p.natAbs : Int) = .ok t1 ∧
      pymod (inv * t1) (p.natAbs : Int) = .ok y0 ∧
      pydiv (p.natAbs : Int) (Int.gcd m p : Int) = .ok dy ∧
      gen_solutions m r p y0 dy (List.range 6) = .ok l := by
  rw [find_integer_solutions] at h
  rw [except_bind_ok] at h; obtain ⟨m, hm, h⟩ := h
  rw [except_bind_ok] at h; obtain ⟨p, hp, h⟩ := h
  rw [except_bind_ok] at h; obtain ⟨r, hr, h⟩ := h
  rw [except_bind_ok] at h; obtain ⟨inv, hinv, h⟩ := h
  rw [except_bind_ok] at h; obtain ⟨t1, ht1, h⟩ := h
  rw [except_bind_ok] at h; obtain ⟨y0, hy0, h⟩ := h
  rw [except_bind_ok] at h; obtain ⟨dy, hdy, h⟩ := h
  rw [except_bind_ok] at h; obtain ⟨dx, hdx, h⟩ := h
  exact ⟨m, p, r, inv, t1, y0, dy, hm, hp, hr, hinv, ht1, hy0, hdy, h⟩

/-- What each pair produced by the sampling loop looks like. -/
theorem gen_solutions_ok_elim (m r p y0 dy : Int) :
    ∀ (cs : List Nat) (l : List (Int × Int)),
      gen_solutions m r p y0 dy cs = .ok l →
      l.length ≤ cs.length ∧
      ∀ xy ∈ l, 0 < xy.1 ∧ 0 < xy.2 ∧
        xy.1 = Int.fdiv (m * xy.2 - r) p ∧ ∃ c ∈ cs, xy.2 = y0 + (c : Int) * dy := by
  intro cs
  induction cs with
  | nil =>
      intro l h
      rw [gen_solutions] at h
      have : l = [] := (Except.ok.inj h).symm
      subst this
      simp
  | cons c cs ih =>
      intro l h
      rw [gen_solutions] at h
      rw [except_bind_ok] at h; obtain ⟨x, hx, h⟩ := h
      rw [except_bind_ok] at h; obtain ⟨rest, hrest, h⟩ := h
      have hl : (if x > 0 ∧ y0 + (c : Int) * dy > 0 then
          (x, y0 + (c : Int) * dy) :: rest else rest) = l := by
        simpa [Pure.pure, Except.pure] using h
      obtain ⟨hlen, hmem⟩ := ih rest hrest
      have hxval : x = Int.fdiv (m * (y0 + (c : Int) * dy) - r) p := by
        rw [pydiv] at hx
        split at hx
        · exact absurd hx (by simp)
        · exact (Except.ok.inj hx).symm
      constructor
      · rw [← hl]
        split
        · simpa using Nat.succ_le_succ hlen
        · exact le_trans hlen (Nat.le_succ _)
      · intro xy hxy
        rw [← hl] at hxy
        by_cases hc : x > 0 ∧ y0 + (c : Int) * dy > 0
        · rw [if_pos hc] at hxy
          rcases List.mem_cons.mp hxy with heq | hmem'
          · subst heq
            exact ⟨hc.1, hc.2, hxval, c, List.mem_cons_self c cs, rfl⟩
          · obtain ⟨h1, h2, h3, c', hc', h4⟩ := hmem xy hmem'
            exact ⟨h1, h2, h3, c', List.mem_cons_of_mem c hc', h4⟩
        · rw [if_neg hc] at hxy
          obtain ⟨h1, h2, h3, c', hc', h4⟩ := hmem xy hxy
          exact ⟨h1, h2, h3, c', List.mem_cons_of_mem c hc', h4⟩

theorem gen_solutions_err (m r p y0 dy : Int) :
    ∀ cs e, gen_solutions m r p y0 dy cs = .error e → e = .zeroDivision := by
  intro cs
  induction cs with
  | nil =>
      intro e h
      rw [gen_solutions] at h
      exact absurd h (by simp)
  | cons c cs ih =>
      intro e h
      rw [gen_solutions] at h
      rw [except_bind_err] at h
      rcases h with h | ⟨x, hx, h⟩
      · exact pydiv_err h
      · rw [except_bind_err] at h
        rcases h with h | ⟨rest, hrest, h⟩
        · exact ih e h
        · exact absurd h (by simp [Pure.pure, Except.pure])

end CollatzRepo

namespace CollatzRepo

theorem pymod_ok_ne {a b c : Int} (h : pymod a b = .ok c) : b ≠ 0 := by
  intro hb
  rw [pymod, if_pos hb] at h
  exact absurd h (by simp)

theorem pymod_ok_val {a b c : Int} (h : pymod a b = .ok c) : c = Int.fmod a b := by
  rw [pymod] at h
  split at h
  · exact absurd h (by simp)
  · exact (Except.ok.inj h).symm

theorem pydiv_ok_ne {a b c : Int} (h : pydiv a b = .ok c) : b ≠ 0 := by
  intro hb
  rw [pydiv, if_pos hb] at h
  exact absurd h (by simp)

theorem pydiv_ok_val {a b c : Int} (h : pydiv a b = .ok c) : c = Int.fdiv a b := by
  rw [pydiv] at h
  split at h
  · exact absurd h (by simp)
  · exact (Except.ok.inj h).symm

theorem fmod_modEq (x : Int) {n : Int} (hn : 0 < n) :
    Int.ModEq n (Int.fmod x n) x := by
  rw [Int.fmod_eq_emod x (le_of_lt hn)]
  exact Int.emod_emod_of_dvd x dvd_rfl

/-- When `gcd(m, n) = 1`, `modular_inverse` succeeds and returns a
modular inverse of `m` mod `n`. -/
theorem modular_inverse_coprime {m n : Int} (hm : 0 ≤ m) (hn : 0 < n)
    (hg : Int.gcd m n = 1) :
    modular_inverse m n = .ok (Int.fmod (extended_gcd m n).2.1 n) ∧
      Int.ModEq n (m * Int.fmod (extended_gcd m n).2.1 n) 1 := by
  have hfst : (extended_gcd m n).1 = 1 := by
    rw [extended_gcd_fst m n hm (le_of_lt hn), hg, Nat.cast_one]
  constructor
  · rw [modular_inverse, if_neg (by simp [hfst]), pymod, if_neg (by omega)]
  · have hb := extended_gcd_bezout m n
    rw [hfst] at hb
    have h1 : Int.ModEq n (m * Int.fmod (extended_gcd m n).2.1 n)
        (m * (extended_gcd m n).2.1) :=
      (fmod_modEq (extended_gcd m n).2.1 hn).mul_left m
    have h2 : Int.ModEq n (m * (extended_gcd m n).2.1) 1 := by
      have : n ∣ 1 - m * (extended_gcd m n).2.1 :=
        ⟨(extended_gcd m n).2.2, by linarith⟩
      exact Int.modEq_iff_dvd.mpr this
    exact h1.trans h2

end CollatzRepo

namespace CollatzRepo

theorem natAbs_cast_gcd (m p : Int) : Int.gcd m (p.natAbs : Int) = Int.gcd m p := by
  simp [Int.gcd, Int.natAbs_abs]

/-- Claim C1, amended: when the cleared coefficients are coprime
(`gcd(m, |p|) = 1`), every sampled pair satisfies the rational equation
exactly. -/
theorem find_integer_solutions_exact
    (a_num a_den b_num b_den m p : Int) (l : List (Int × Int))
    (hden1 : 0 < a_den) (hden2 : 0 < b_den)
    (hm : lcm a_den b_den = .ok m)
    (hp : pydiv (m * a_num) a_den = .ok p)
    (hg : Int.gcd m (p.natAbs : Int) = 1)
    (h : find_integer_solutions a_num a_den b_num b_den = .ok l) :
    ∀ xy ∈ l,
      (a_num : ℚ) / (a_den : ℚ) * (xy.1 : ℚ) + (b_num : ℚ) / (b_den : ℚ)
        = (xy.2 : ℚ) := by
  obtain ⟨m', p', r, inv, t1, y0, dy, hm', hp', hr, hinv, ht1, hy0, hdy, hgen⟩ :=
    find_integer_solutions_ok_elim h
  -- identify the intermediate values with the hypothesised ones
  have hmm : m = m' := Except.ok.inj (hm.symm.trans hm')
  subst hmm
  have hpp : p = p' := Except.ok.inj (hp.symm.trans hp')
  subst hpp
  -- basic facts about m
  have hmval : m = (Int.lcm a_den b_den : Int) :=
    Except.ok.inj (hm.symm.trans (lcm_ok hden1 hden2))
  have hmpos : 0 < m := hmval ▸ lcm_pos_int (by omega) (by omega)
  have hda : a_den ∣ m := hmval ▸ dvd_lcm_left_int a_den b_den
  have hdb : b_den ∣ m := hmval ▸ dvd_lcm_right_int a_den b_den
  -- exactness of the cleared coefficients
  have hpkey : p * a_den = m * a_num := by
    have : p = (m * a_num) / a_den :=
      Except.ok.inj (hp.symm.trans (pydiv_ok_of_dvd (by omega) (hda.mul_right a_num)))
    rw [this]
    exact Int.ediv_mul_cancel (hda.mul_right a_num)
  have hrkey : r * b_den = m * b_num := by
    have : r = (m * b_num) / b_den :=
      Except.ok.inj (hr.symm.trans (pydiv_ok_of_dvd (by omega) (hdb.mul_right b_num)))
    rw [this]
    exact Int.ediv_mul_cancel (hdb.mul_right b_num)
  -- the modulus |p| is positive
  have hn0 : (p.natAbs : Int) ≠ 0 := pymod_ok_ne ht1
  have hnpos : 0 < (p.natAbs : Int) := by omega
  have hp0 : p ≠ 0 := by
    intro hzero
    rw [hzero] at hn0
    exact hn0 (by simp)
  -- the modular inverse
  obtain ⟨hinv2, hcong⟩ := modular_inverse_coprime (le_of_lt hmpos) hnpos hg
  have hinvval : inv = Int.fmod (extended_gcd m (p.natAbs : Int)).2.1 (p.natAbs : Int) :=
    Except.ok.inj (hinv.symm.trans hinv2)
  -- congruence m * y0 ≡ r (mod |p|)
  have ht1c : Int.ModEq (p.natAbs : Int) t1 r := by
    rw [pymod_ok_val ht1]
    exact fmod_modEq r hnpos
  have hy0c : Int.ModEq (p.natAbs : Int) y0 (inv * t1) := by
    rw [pymod_ok_val hy0]
    exact fmod_modEq (inv * t1) hnpos
  have hkeycong : Int.ModEq (p.natAbs : Int) (m * y0) r := by
    have h1 : Int.ModEq (p.natAbs : Int) (m * y0) (m * (inv * t1)) :=
      hy0c.mul_left m
    have h2 : Int.ModEq (p.natAbs : Int) (m * (inv * t1)) (1 * t1) := by
      have := hcong.mul_right t1
      rw [hinvval] at h1 ⊢
      calc m * (Int.fmod (extended_gcd m (p.natAbs : Int)).2.1 (p.natAbs : Int) * t1)
          = m * Int.fmod (extended_gcd m (p.natAbs : Int)).2.1 (p.natAbs : Int) * t1 := by
            ring
        _ ≡ 1 * t1 [ZMOD (p.natAbs : Int)] := this
    have h3 : Int.ModEq (p.natAbs : Int) (1 * t1) r := by
      rw [one_mul]
      exact ht1c
    exact (h1.trans h2).trans h3
  -- the step size is the modulus itself
  have hdyval : dy = (p.natAbs : Int) := by
    have := pydiv_ok_val hdy
    rw [natAbs_cast_gcd] at hg
    rw [hg] at this
    simpa [Int.fdiv_one] using this
  -- finish per element
  obtain ⟨_, hmem⟩ := gen_solutions_ok_elim m r p y0 dy _ l hgen
  intro xy hxy
  obtain ⟨_, _, hxval, c, _, hyval⟩ := hmem xy hxy
  -- |p| divides m * xy.2 - r
  have hdvd : (p.natAbs : Int) ∣ m * xy.2 - r := by
    have h1 : (p.natAbs : Int) ∣ m * y0 - r := hkeycong.symm.dvd
    have h2 : m * xy.2 - r = (m * y0 - r) + m * (c : Int) * (p.natAbs : Int) := by
      rw [hyval, hdyval]
      ring
    rw [h2]
    exact dvd_add h1 (Dvd.intro_left _ rfl)
  have hpdvd : p ∣ m * xy.2 - r := Int.natAbs_dvd.mp hdvd
  have hxkey : xy.1 * p = m * xy.2 - r := by
    rw [hxval, Int.fdiv_eq_ediv_of_dvd hpdvd]
    exact Int.ediv_mul_cancel hpdvd
  -- integer identity, then cast to ℚ
  have hintm : m * (a_num * xy.1 * b_den + b_num * a_den)
      = m * (xy.2 * (a_den * b_den)) := by
    linear_combination (-(xy.1 * b_den)) * hpkey - a_den * hrkey
      + (a_den * b_den) * hxkey
  have hint : a_num * xy.1 * b_den + b_num * a_den = xy.2 * (a_den * b_den) :=
    mul_left_cancel₀ (by omega) hintm
  have hq : (a_num : ℚ) * (xy.1 : ℚ) * (b_den : ℚ) + (b_num : ℚ) * (a_den : ℚ)
      = (xy.2 : ℚ) * ((a_den : ℚ) * (b_den : ℚ)) := by
    exact_mod_cast congrArg (fun z : Int => (z : ℚ)) hint
  have ha0 : (a_den : ℚ) ≠ 0 := by
    exact_mod_cast (by omega : a_den ≠ 0)
  have hb0 : (b_den : ℚ) ≠ 0 := by
    exact_mod_cast (by omega : b_den ≠ 0)
  field_simp
  linear_combination hq

end CollatzRepo

namespace CollatzRepo

instance {ε α : Type} [DecidableEq ε] [DecidableEq α] : DecidableEq (Except ε α) := fun x y =>
  match x, y with
  | .error e, .error f =>
      if h : e = f then isTrue (by rw [h]) else isFalse (fun hh => h (Except.error.inj hh))
  | .ok a, .ok b =>
      if h : a = b then isTrue (by rw [h]) else isFalse (fun hh => h (Except.ok.inj hh))
  | .error _, .ok _ => isFalse (fun hh => Except.noConfusion hh)
  | .ok _, .error _ => isFalse (fun hh => Except.noConfusion hh)

theorem ok_bind {α β : Type} (a : α) (f : α → Except PyErr β) :
    (Except.ok a >>= f) = f a := rfl

/-- Fuelled twin of `extended_gcd`, used only to evaluate it on concrete
inputs (the well-founded recursion does not reduce in the kernel). -/
def egcd_fuel : Nat → Int → Int → Int × Int × Int
  | 0, a, _ => (a, 1, 0)
  | fuel + 1, a, b =>
    if b = 0 then (a, 1, 0)
    else
      let r := egcd_fuel fuel b (Int.fmod a b)
      (r.1, r.2.2, r.2.1 - Int.fdiv a b * r.2.2)

theorem extended_gcd_eq_fuel : ∀ (fuel : Nat) (a b : Int), b.natAbs < fuel →
    extended_gcd a b = egcd_fuel fuel a b := by
  intro fuel
  induction fuel with
  | zero => intro a b h; omega
  | succ fuel ih =>
      intro a b h
      by_cases hb : b = 0
      · rw [extended_gcd, dif_pos hb, egcd_fuel, if_pos hb]
      · rw [extended_gcd, dif_neg hb, egcd_fuel, if_neg hb]
        have hlt := fmod_natAbs_lt a hb
        rw [ih b (Int.fmod a b) (by omega)]

theorem extended_gcd_eval (a b : Int) :
    extended_gcd a b = egcd_fuel (b.natAbs + 1) a b :=
  extended_gcd_eq_fuel _ _ _ (Nat.lt_succ_self _)

theorem eval_fis_2212 : find_integer_solutions 2 2 1 2
    = .ok [(1, 2), (2, 3), (3, 4), (4, 5), (5, 6)] := by
  have hmi : modular_inverse 2 (((2:Int).natAbs : Nat) : Int) = .ok (-1) := by
    rw [modular_inverse, extended_gcd_eval]; decide
  simp only [find_integer_solutions,
    show lcm 2 2 = Except.ok 2 from by decide, ok_bind]
  simp only [show pydiv (2 * 2) 2 = Except.ok 2 from by decide, ok_bind]
  simp only [show pydiv (2 * 1) 2 = Except.ok 1 from by decide, ok_bind]
  simp only [hmi, ok_bind]
  decide

end CollatzRepo

namespace CollatzRepo

theorem err_bind {α β : Type} (e : PyErr) (f : α → Except PyErr β) :
    (Except.error e >>= f) = Except.error e := rfl

theorem eg_zero (a : Int) : extended_gcd a 0 = (a, 1, 0) := by
  rw [extended_gcd, dif_pos rfl]

/-- When `gcd(m, |p|) != 1`, `find_solution_equation` raises the typed
no-modular-inverse `ValueError`. -/
theorem find_solution_equation_no_inverse
    (a_num a_den b_num b_den m p : Int)
    (hden1 : 0 < a_den) (hden2 : 0 < b_den)
    (hm : lcm a_den b_den = .ok m)
    (hp : pydiv (m * a_num) a_den = .ok p)
    (hg : Int.gcd m ((p.natAbs : Nat) : Int) ≠ 1) :
    find_solution_equation a_num a_den b_num b_den = .error .noModularInverse := by
  have hmval : m = (Int.lcm a_den b_den : Int) :=
    Except.ok.inj (hm.symm.trans (lcm_ok hden1 hden2))
  have hmpos : 0 < m := hmval ▸ lcm_pos_int (by omega) (by omega)
  have hgpos : (0 : Int) < (Int.gcd m ((p.natAbs : Nat) : Int) : Int) := by
    exact_mod_cast Int.gcd_pos_of_ne_zero_left ((p.natAbs : Nat) : Int)
      (by omega : m ≠ 0)
  have hfst : (extended_gcd m ((p.natAbs : Nat) : Int)).1
      = (Int.gcd m ((p.natAbs : Nat) : Int) : Int) :=
    extended_gcd_fst _ _ (by omega) (Int.natCast_nonneg _)
  have hmi : modular_inverse m ((p.natAbs : Nat) : Int) = .ok (-1) := by
    rw [modular_inverse, if_pos]
    rw [hfst]
    intro hone
    exact hg (by exact_mod_cast hone)
  simp only [find_solution_equation, hm, ok_bind, hp,
    pydiv_ok (by omega : b_den ≠ 0), ok_bind,
    pydiv_ok (by omega : (Int.gcd m ((p.natAbs : Nat) : Int) : Int) ≠ 0),
    hmi, if_pos rfl, if_true]

/-- `find_integer_solutions` contains no `-1` check, so it can never
raise the typed no-modular-inverse error. -/
theorem find_integer_solutions_never_typed (a_num a_den b_num b_den : Int) :
    find_integer_solutions a_num a_den b_num b_den ≠ .error .noModularInverse := by
  intro h
  rw [find_integer_solutions] at h
  rw [except_bind_err] at h
  rcases h with h | ⟨m, hm, h⟩
  · exact PyErr.noConfusion (lcm_err h)
  rw [except_bind_err] at h
  rcases h with h | ⟨p, hp, h⟩
  · exact PyErr.noConfusion (pydiv_err h)
  rw [except_bind_err] at h
  rcases h with h | ⟨r, hr, h⟩
  · exact PyErr.noConfusion (pydiv_err h)
  rw [except_bind_err] at h
  rcases h with h | ⟨inv, hinv, h⟩
  · exact PyErr.noConfusion (modular_inverse_err h)
  rw [except_bind_err] at h
  rcases h with h | ⟨t1, ht1, h⟩
  · exact PyErr.noConfusion (pymod_err h)
  rw [except_bind_err] at h
  rcases h with h | ⟨y0, hy0, h⟩
  · exact PyErr.noConfusion (pymod_err h)
  rw [except_bind_err] at h
  rcases h with h | ⟨dy, hdy, h⟩
  · exact PyErr.noConfusion (pydiv_err h)
  rw [except_bind_err] at h
  rcases h with h | ⟨dx, hdx, h⟩
  · exact PyErr.noConfusion (pydiv_err h)
  · exact PyErr.noConfusion (gen_solutions_err m r p y0 dy _ _ h)

end CollatzRepo

namespace CollatzRepo

theorem pymod_zero (a : Int) : pymod a 0 = .error .zeroDivision := by
  rw [pymod, if_pos rfl]

theorem modular_inverse_one_zero : modular_inverse 1 0 = .error .zeroDivision := by
  rw [modular_inverse, eg_zero]
  decide

theorem modular_inverse_zero {m : Int} (hm1 : m ≠ 1) :
    modular_inverse m 0 = .ok (-1) := by
  rw [modular_inverse, eg_zero, if_pos hm1]

/-- Claim C10, amended: with `a_num = 0` the cleared coefficient `p` is `0`;
`find_integer_solutions` then always raises `ZeroDivisionError`, while
`find_solution_equation` raises `ZeroDivisionError` only when `m = 1` and
otherwise raises the typed no-modular-inverse error. -/
theorem solver_zero_x_coefficient
    (a_den b_den b_num m : Int) (hden1 : 0 < a_den) (hden2 : 0 < b_den)
    (hm : lcm a_den b_den = .ok m) :
    find_integer_solutions 0 a_den b_num b_den = .error .zeroDivision ∧
    (m = 1 → find_solution_equation 0 a_den b_num b_den = .error .zeroDivision) ∧
    (m ≠ 1 → find_solution_equation 0 a_den b_num b_den = .error .noModularInverse) := by
  have hmval : m = (Int.lcm a_den b_den : Int) :=
    Except.ok.inj (hm.symm.trans (lcm_ok hden1 hden2))
  have hmpos : 0 < m := hmval ▸ lcm_pos_int (by omega) (by omega)
  have hp0 : pydiv (m * 0) a_den = .ok 0 := by
    rw [pydiv, if_neg (by omega : ¬a_den = 0), mul_zero, Int.zero_fdiv]
  have hgne : ((Int.gcd m 0 : Nat) : Int) ≠ 0 := by
    exact_mod_cast Int.gcd_pos_of_ne_zero_left 0 (by omega : m ≠ 0) |>.ne'
  refine ⟨?_, ?_, ?_⟩
  · simp only [find_integer_solutions, hm, ok_bind, hp0,
      pydiv_ok (by omega : b_den ≠ 0), ok_bind, Int.natAbs_zero, Nat.cast_zero]
    by_cases hm1 : m = 1
    · subst hm1
      simp only [modular_inverse_one_zero, err_bind]
    · simp only [modular_inverse_zero hm1, ok_bind, pymod_zero, err_bind]
  · intro hm1
    subst hm1
    simp only [find_solution_equation, hm, ok_bind, hp0,
      pydiv_ok (by omega : b_den ≠ 0), ok_bind, Int.natAbs_zero, Nat.cast_zero,
      pydiv_ok hgne, modular_inverse_one_zero, err_bind]
  · intro hm1
    simp only [find_solution_equation, hm, ok_bind, hp0,
      pydiv_ok (by omega : b_den ≠ 0), ok_bind, Int.natAbs_zero, Nat.cast_zero,
      pydiv_ok hgne, modular_inverse_zero hm1, ok_bind, if_pos rfl, if_true]

end CollatzRepo

namespace CollatzRepo

theorem eval_fis_3_64_1_16 : find_integer_solutions 3 64 1 16
    = .ok [(20, 1), (84, 4), (148, 7), (212, 10), (276, 13), (340, 16)] := by
  have hmi : modular_inverse 64 (((3:Int).natAbs : Nat) : Int) = .ok 1 := by
    rw [modular_inverse, extended_gcd_eval]; decide
  simp only [find_integer_solutions,
    show lcm 64 16 = Except.ok 64 from by decide, ok_bind]
  simp only [show pydiv (64 * 3) 64 = Except.ok 3 from by decide, ok_bind]
  simp only [show pydiv (64 * 1) 16 = Except.ok 4 from by decide, ok_bind]
  simp only [hmi, ok_bind]
  decide

/-- Claim C1 counterexample: for input `(2, 2, 1, 2)` (both denominators
positive) the returned pair `(1, 2)` does not satisfy
`(2/2) * 1 + 1/2 = 2`. -/
theorem find_integer_solutions_inexact_pair :
    find_integer_solutions 2 2 1 2 = .ok [(1, 2), (2, 3), (3, 4), (4, 5), (5, 6)] ∧
    ¬(((2:Int) : ℚ) / ((2:Int) : ℚ) * ((1:Int) : ℚ) + ((1:Int) : ℚ) / ((2:Int) : ℚ)
        = ((2:Int) : ℚ)) :=
  ⟨eval_fis_2212, by norm_num⟩

/-- Claim C1 witness: at `(3, 64, 1, 16)` the sampled pair `(20, 1)`
satisfies `(3/64) * 20 + 1/16 = 1` exactly. -/
theorem find_integer_solutions_exact_witness :
    ((3:Int) : ℚ) / ((64:Int) : ℚ) * ((20:Int) : ℚ) + ((1:Int) : ℚ) / ((16:Int) : ℚ)
      = ((1:Int) : ℚ) :=
  find_integer_solutions_exact 3 64 1 16 64 3 _
    (by decide) (by decide) (by decide) (by decide) (by decide) eval_fis_3_64_1_16
    (20, 1) (by decide)

/-- Claim C2, amended: when `gcd(m, |p|) != 1` the typed
no-modular-inverse error is raised by `find_solution_equation` only;
`find_integer_solutions` never raises it (it has no `-1` check). -/
theorem solver_typed_error_entry_points :
    (∀ a_num a_den b_num b_den m p : Int, 0 < a_den → 0 < b_den →
      lcm a_den b_den = .ok m → pydiv (m * a_num) a_den = .ok p →
      Int.gcd m ((p.natAbs : Nat) : Int) ≠ 1 →
      find_solution_equation a_num a_den b_num b_den = .error .noModularInverse) ∧
    (∀ a_num a_den b_num b_den : Int,
      find_integer_solutions a_num a_den b_num b_den ≠ .error .noModularInverse) :=
  ⟨find_solution_equation_no_inverse, find_integer_solutions_never_typed⟩

/-- Claim C2 witness: at `(2, 2, 1, 2)` we have `m = 2`, `p = 2`,
`gcd(2, 2) = 2 != 1`; `find_solution_equation` raises the typed error and
`find_integer_solutions` does not. -/
theorem solver_typed_error_entry_points_witness :
    find_solution_equation 2 2 1 2 = .error .noModularInverse ∧
    find_integer_solutions 2 2 1 2 ≠ .error .noModularInverse :=
  ⟨solver_typed_error_entry_points.1 2 2 1 2 2 2
      (by decide) (by decide) (by decide) (by decide) (by decide),
    solver_typed_error_entry_points.2 2 2 1 2⟩

/-- Claim C2 counterexample: at `(2, 2, 1, 2)` the cleared equation has
`gcd(m, |p|) = 2 != 1`, yet `find_integer_solutions` returns a plain
result instead of raising the typed error. -/
theorem find_integer_solutions_silent_on_gcd :
    Int.gcd (2:Int) (((2:Int).natAbs : Nat) : Int) ≠ 1 ∧
    lcm 2 2 = .ok 2 ∧ pydiv ((2:Int) * 2) 2 = .ok 2 ∧
    find_integer_solutions 2 2 1 2 = .ok [(1, 2), (2, 3), (3, 4), (4, 5), (5, 6)] :=
  ⟨by decide, by decide, by decide, eval_fis_2212⟩

/-- Claim C9: whenever `find_integer_solutions` returns a list, it holds
at most six pairs and every pair is strictly positive in both components
(the `k = 0..5` candidates that fail the positivity filter are dropped). -/
theorem find_integer_solutions_sample_bounded
    (a_num a_den b_num b_den : Int) (l : List (Int × Int))
    (h : find_integer_solutions a_num a_den b_num b_den = .ok l) :
    l.length ≤ 6 ∧ ∀ xy ∈ l, 0 < xy.1 ∧ 0 < xy.2 := by
  obtain ⟨m, p, r, inv, t1, y0, dy, _, _, _, _, _, _, _, hgen⟩ :=
    find_integer_solutions_ok_elim h
  obtain ⟨hlen, hmem⟩ := gen_solutions_ok_elim m r p y0 dy _ l hgen
  refine ⟨by simpa using hlen, fun xy hxy => ?_⟩
  obtain ⟨h1, h2, _⟩ := hmem xy hxy
  exact ⟨h1, h2⟩

/-- Claim C9 witness: input `(2, 2, 1, 2)` yields a five-element sample
(shorter than six) whose pairs are all positive. -/
theorem find_integer_solutions_sample_bounded_witness :
    ([((1:Int), (2:Int)), (2, 3), (3, 4), (4, 5), (5, 6)].length ≤ 6 ∧
      ∀ xy ∈ [((1:Int), (2:Int)), (2, 3), (3, 4), (4, 5), (5, 6)],
        0 < xy.1 ∧ 0 < xy.2) :=
  find_integer_solutions_sample_bounded 2 2 1 2 _ eval_fis_2212

/-- Claim C10 counterexample: at `(0, 2, 1, 1)` the function
`find_solution_equation` raises the typed no-modular-inverse error, not
`ZeroDivisionError`. -/
theorem find_solution_equation_zero_typed :
    find_solution_equation 0 2 1 1 = .error .noModularInverse ∧
    PyErr.noModularInverse ≠ PyErr.zeroDivision := by
  constructor
  · have h1 : modular_inverse 2 0 = .ok (-1) := modular_inverse_zero (by decide)
    simp only [find_solution_equation,
      show lcm 2 1 = Except.ok 2 from by decide, ok_bind,
      show pydiv ((2:Int) * 0) 2 = Except.ok 0 from by decide, ok_bind,
      show pydiv ((2:Int) * 1) 1 = Except.ok 2 from by decide, ok_bind,
      Int.natAbs_zero, Nat.cast_zero,
      show pydiv (0:Int) ((Int.gcd 2 0 : Nat) : Int) = Except.ok 0 from by decide,
      show pydiv (2:Int) ((Int.gcd 2 0 : Nat) : Int) = Except.ok 1 from by decide,
      ok_bind, h1, if_pos rfl, if_true]
  · decide

/-- Claim C10 witness: at `a_den = 2`, `b_den = 1`, `b_num = 1` (so
`m = 2`), `find_integer_solutions` raises `ZeroDivisionError` while
`find_solution_equation` raises the typed error. -/
theorem solver_zero_x_coefficient_witness :
    find_integer_solutions 0 2 1 1 = .error .zeroDivision ∧
    ((2:Int) = 1 → find_solution_equation 0 2 1 1 = .error .zeroDivision) ∧
    ((2:Int) ≠ 1 → find_solution_equation 0 2 1 1 = .error .noModularInverse) :=
  solver_zero_x_coefficient 2 1 1 2 (by decide) (by decide) (by decide)

end CollatzRepo

namespace CollatzRepo

/-! ### Embedding of `main.py` -/

/-- A single Collatz step from `collatz_op`: `(x // 2, 0)` when `x` is
even, `(3 * x + 1, 1)` when odd. -/
def collatz_op (x : Int) : Int × Int :=
  if Int.fmod x 2 = 0 then (Int.fdiv x 2, 0) else (3 * x + 1, 1)

/-- One element of a generated sequence: either a plain integer or the
`C(x)` backreference marker string. -/
inductive Entry where
  | num (n : Int)
  | backref (n : Int)
deriving DecidableEq, Repr

/-- The memoization cache: a Python `dict` from integers to sequences,
modelled as an insertion-ordered association list. -/
abbrev Cache := List (Int × List Entry)

/-- Dictionary lookup (first match). -/
def Cache.find : Cache → Int → Option (List Entry)
  | [], _ => none
  | (k', v') :: rest, k => if k' = k then some v' else Cache.find rest k

/-- Dictionary assignment: overwrite in place, append if absent. -/
def Cache.insert : Cache → Int → List Entry → Cache
  | [], k, v => [(k, v)]
  | (k', v') :: rest, k, v =>
      if k' = k then (k, v) :: rest else (k', v') :: Cache.insert rest k v

/-- The `while x != 1` loop of `collatz`, with explicit fuel (`none`
means the loop has not terminated within the given fuel). -/
def collatz_loop (start : Int) (cache : Cache) (restrict : Bool) :
    Nat → Int → Option (List Entry)
  | 0, x =>
      if x = 1 then some [Entry.num 1]
      else if (cache.find x).isSome ∧ (restrict = false ∨ x < start) then
        some [Entry.backref x]
      else none
  | fuel + 1, x =>
      if x = 1 then some [Entry.num 1]
      else if (cache.find x).isSome ∧ (restrict = false ∨ x < start) then
        some [Entry.backref x]
      else
        (collatz_loop start cache restrict fuel (collatz_op x).1).map (Entry.num x :: ·)

/-- The cache-write loop of `collatz`: for each index, if the element is
a plain integer `num`, set `cache[num] = sequence[idx:]`. -/
def writeSuffixes : List Entry → Cache → Cache
  | [], c => c
  | Entry.num n :: rest, c => writeSuffixes rest (c.insert n (Entry.num n :: rest))
  | Entry.backref _ :: rest, c => writeSuffixes rest c

/-- Result of a `collatz` call: the sequence plus the cache after the
call, or the `ValueError` raised on non-positive input. -/
inductive CollatzOut where
  | ok (seq : List Entry) (cache : Cache)
  | invalidInput
deriving DecidableEq, Repr

/-- Embedding of `collatz(x, cache, restrict_cache)`; the cache is
threaded explicitly, and `none` means the `while` loop ran out of fuel. -/
def collatz (fuel : Nat) (x : Int) (cache : Cache) (restrict_cache : Bool) :
    Option CollatzOut :=
  if x ≤ 0 then some CollatzOut.invalidInput
  else
    (collatz_loop x cache restrict_cache fuel x).map fun seq =>
      CollatzOut.ok seq (if restrict_cache then cache else writeSuffixes seq cache)

/-- The loop of `full_binary_sequence`, returning the list of operation
tags. -/
def full_binary_loop : Nat → Int → Option (List Int)
  | 0, x => if x = 1 then some [] else none
  | fuel + 1, x =>
      if x = 1 then some []
      else
        (full_binary_loop fuel (collatz_op x).1).map ((collatz_op x).2 :: ·)

/-- Embedding of `full_binary_sequence(start)`: the joined string of
`str(operation)` tags. -/
def full_binary_sequence (start : Int) (fuel : Nat) : Option String :=
  (full_binary_loop fuel start).map fun l => String.join (l.map toString)

/-- The loop of `collatz_transformation`: exact rational pair `(a, b)`
updated as `t/2` on even steps and `3t + 1` on odd steps, in lock-step
with the concrete value. -/
def transformation_loop : Nat → Int → ℚ × ℚ → Option (ℚ × ℚ)
  | 0, current, t => if current = 1 then some t else none
  | fuel + 1, current, t =>
      if current = 1 then some t
      else if Int.fmod current 2 = 0 then
        transformation_loop fuel (Int.fdiv current 2) (t.1 / 2, t.2 / 2)
      else
        transformation_loop fuel (3 * current + 1) (3 * t.1, 3 * t.2 + 1)

/-- Embedding of `collatz_transformation(start)`: starts from the
identity transform `x`, i.e. `(a, b) = (1, 0)`. -/
def collatz_transformation (start : Int) (fuel : Nat) : Option (ℚ × ℚ) :=
  transformation_loop fuel start (1, 0)

/-! ### The direct iteration, used to state the specification claims -/

/-- `n`-fold iteration of the Collatz step. -/
def iterSteps : Nat → Int → Int
  | 0, x => x
  | n + 1, x => iterSteps n (collatz_op x).1

/-- The trajectory of `x` reaches `1`. -/
def reaches1 (x : Int) : Prop := ∃ n, iterSteps n x = 1

instance (x : Int) : DecidablePred (fun n => iterSteps n x = 1) :=
  fun _ => inferInstance

/-- The full value sequence `x, step x, ..., 1` obtained by iterating
`collatz_op` until the first `1`. -/
def directList (x : Int) (h : reaches1 x) : List Int :=
  (List.range (Nat.find h + 1)).map (fun n => iterSteps n x)

/-- Expansion of backreference markers by following the cache: a
sequence `s` expands to the integer list `l`. -/
inductive Expands (cache : Cache) : List Entry → List Int → Prop where
  | nil : Expands cache [] []
  | num {n rest l} : Expands cache rest l →
      Expands cache (Entry.num n :: rest) (n :: l)
  | backref {v s rest l} : cache.find v = some s →
      Expands cache (s ++ rest) l →
      Expands cache (Entry.backref v :: rest) l

/-- The cache invariant of the spec (§3): every cached suffix expands,
by following the cache, to the true trajectory of its key.  -/
def GoodCache (cache : Cache) : Prop :=
  ∀ k s, cache.find k = some s → ∃ h : reaches1 k, Expands cache s (directList k h)

end CollatzRepo

namespace CollatzRepo

/-! ### Cache lemmas -/

theorem find_insert_self (c : Cache) (k : Int) (v : List Entry) :
    (Cache.insert c k v).find k = some v := by
  induction c with
  | nil => simp [Cache.insert, Cache.find]
  | cons kv rest ih =>
      by_cases hk : kv.1 = k
      · simp [Cache.insert, hk, Cache.find]
      · simp [Cache.insert, hk, Cache.find, ih]

theorem find_insert_ne (c : Cache) {k k' : Int} (v : List Entry) (hne : k' ≠ k) :
    (Cache.insert c k v).find k' = c.find k' := by
  induction c with
  | nil => simp [Cache.insert, Cache.find, hne, Ne.symm hne]
  | cons kv rest ih =>
      by_cases hk : kv.1 = k
      · simp [Cache.insert, hk, Cache.find, Ne.symm hne, hne]
      · by_cases hk' : kv.1 = k'
        · simp [Cache.insert, hk, Cache.find, hk', hne, Ne.symm hne]
        · simp [Cache.insert, hk, Cache.find, hk', ih]

theorem insert_keeps_key (c : Cache) (k n : Int) (v : List Entry)
    (h : (Cache.find c k).isSome) : (Cache.find (Cache.insert c n v) k).isSome := by
  by_cases hk : k = n
  · subst hk
    rw [find_insert_self]
    rfl
  · rw [find_insert_ne c v hk]
    exact h

theorem writeSuffixes_keeps_key (s : List Entry) :
    ∀ (c : Cache) (k : Int), (Cache.find c k).isSome →
      (Cache.find (writeSuffixes s c) k).isSome := by
  induction s with
  | nil => intro c k h; exact h
  | cons e rest ih =>
      intro c k h
      cases e with
      | num n => exact ih _ k (insert_keeps_key c k n _ h)
      | backref v => exact ih _ k h

/-- The first-element invariant on caches: every cached sequence begins
with its own key. -/
def HeadInv (c : Cache) : Prop :=
  ∀ v s, Cache.find c v = some s → s.head? = some (Entry.num v)

theorem insert_head_inv {c : Cache} (hc : HeadInv c) {n : Int} {v : List Entry}
    (hv : v.head? = some (Entry.num n)) : HeadInv (Cache.insert c n v) := by
  intro k s hks
  by_cases hk : k = n
  · subst hk
    rw [find_insert_self] at hks
    rw [← Option.some.inj hks]
    exact hv
  · rw [find_insert_ne c v hk] at hks
    exact hc k s hks

theorem writeSuffixes_head_inv (s : List Entry) :
    ∀ (c : Cache), HeadInv c → HeadInv (writeSuffixes s c) := by
  induction s with
  | nil => intro c hc; exact hc
  | cons e rest ih =>
      intro c hc
      cases e with
      | num n => exact ih _ (insert_head_inv hc rfl)
      | backref v => exact ih _ hc

/-- Claim C5: a `collatz` call only adds or overwrites cache entries
(every key present before is present after), and it preserves the
invariant that `cache[v]`'s first element is `v` itself. -/
theorem collatz_cache_monotone (fuel : Nat) (x : Int) (cache : Cache)
    (restrict : Bool) (seq : List Entry) (cache2 : Cache)
    (h : collatz fuel x cache restrict = some (CollatzOut.ok seq cache2)) :
    (∀ k, (Cache.find cache k).isSome → (Cache.find cache2 k).isSome) ∧
    (HeadInv cache → HeadInv cache2) := by
  rw [collatz] at h
  split at h
  · exact absurd (Option.some.inj h) (by simp)
  · cases hl : collatz_loop x cache restrict fuel x with
    | none => rw [hl] at h; exact absurd h (by simp)
    | some s =>
        rw [hl] at h
        simp only [Option.map_some'] at h
        obtain ⟨hseq, hcache⟩ := CollatzOut.ok.inj (Option.some.inj h)
        cases restrict with
        | true =>
            rw [if_pos rfl] at hcache
            subst hcache
            exact ⟨fun k hk => hk, fun hc => hc⟩
        | false =>
            rw [if_neg Bool.false_ne_true] at hcache
            subst hcache
            exact ⟨fun k hk => writeSuffixes_keeps_key s cache k hk,
              fun hc => writeSuffixes_head_inv s cache hc⟩

/-- Claim C5 witness: the call `collatz(1)` over a cache that already
holds key `2` keeps key `2` and preserves the head invariant. -/
theorem collatz_cache_monotone_witness :
    (∀ k, (Cache.find [((2:Int), [Entry.num 2, Entry.num 1])] k).isSome →
      (Cache.find [((2:Int), [Entry.num 2, Entry.num 1]),
        ((1:Int), [Entry.num 1])] k).isSome) ∧
    (HeadInv [((2:Int), [Entry.num 2, Entry.num 1])] →
      HeadInv [((2:Int), [Entry.num 2, Entry.num 1]), ((1:Int), [Entry.num 1])]) :=
  collatz_cache_monotone 1 1 [((2:Int), [Entry.num 2, Entry.num 1])] false
    [Entry.num 1] [((2:Int), [Entry.num 2, Entry.num 1]), ((1:Int), [Entry.num 1])]
    (by decide)

/-- Claim C7: with `restrict_cache = True` the cache-write step is
skipped entirely, so a successful `collatz` call leaves the cache it was
given completely unchanged. -/
theorem collatz_restricted_frame (fuel : Nat) (x : Int) (cache : Cache)
    (seq : List Entry) (cache2 : Cache) (hx : 0 < x)
    (h : collatz fuel x cache true = some (CollatzOut.ok seq cache2)) :
    cache2 = cache := by
  rw [collatz, if_neg (by omega : ¬x ≤ 0)] at h
  cases hl : collatz_loop x cache true fuel x with
  | none => rw [hl] at h; exact absurd h (by simp)
  | some s =>
      rw [hl] at h
      simp only [Option.map_some'] at h
      exact ((CollatzOut.ok.inj (Option.some.inj h)).2).symm

/-- Claim C7 witness: a restricted call from `6` over a cache holding `3`
leaves that cache unchanged. -/
theorem collatz_restricted_frame_witness :
    ([((3:Int), [Entry.num 3, Entry.num 1])] : Cache)
      = [((3:Int), [Entry.num 3, Entry.num 1])] :=
  collatz_restricted_frame 100 6 [((3:Int), [Entry.num 3, Entry.num 1])]
    [Entry.num 6, Entry.backref 3] [((3:Int), [Entry.num 3, Entry.num 1])]
    (by norm_num) (by decide)

/-- Claim C8: `collatz` is deterministic — two invocations started from
identical cache states return identical sequences and identical final
caches. -/
theorem collatz_deterministic (fuel : Nat) (x : Int) (c1 c2 : Cache)
    (restrict : Bool) (s1 s2 : List Entry) (o1 o2 : Cache) (hc : c1 = c2)
    (h1 : collatz fuel x c1 restrict = some (CollatzOut.ok s1 o1))
    (h2 : collatz fuel x c2 restrict = some (CollatzOut.ok s2 o2)) :
    s1 = s2 ∧ o1 = o2 := by
  subst hc
  rw [h1] at h2
  exact CollatzOut.ok.inj (Option.some.inj h2)

/-- Claim C8 witness: two runs from `6` over equal empty caches agree. -/
theorem collatz_deterministic_witness :
    ([Entry.num 6, Entry.num 3, Entry.num 10, Entry.num 5, Entry.num 16,
      Entry.num 8, Entry.num 4, Entry.num 2, Entry.num 1]
      = [Entry.num 6, Entry.num 3, Entry.num 10, Entry.num 5, Entry.num 16,
        Entry.num 8, Entry.num 4, Entry.num 2, Entry.num 1]) ∧
    (writeSuffixes [Entry.num 6, Entry.num 3, Entry.num 10, Entry.num 5,
        Entry.num 16, Entry.num 8, Entry.num 4, Entry.num 2, Entry.num 1] []
      = writeSuffixes [Entry.num 6, Entry.num 3, Entry.num 10, Entry.num 5,
        Entry.num 16, Entry.num 8, Entry.num 4, Entry.num 2, Entry.num 1] []) :=
  collatz_deterministic 100 6 [] [] false
    [Entry.num 6, Entry.num 3, Entry.num 10, Entry.num 5, Entry.num 16,
      Entry.num 8, Entry.num 4, Entry.num 2, Entry.num 1]
    [Entry.num 6, Entry.num 3, Entry.num 10, Entry.num 5, Entry.num 16,
      Entry.num 8, Entry.num 4, Entry.num 2, Entry.num 1]
    (writeSuffixes [Entry.num 6, Entry.num 3, Entry.num 10, Entry.num 5,
      Entry.num 16, Entry.num 8, Entry.num 4, Entry.num 2, Entry.num 1] [])
    (writeSuffixes [Entry.num 6, Entry.num 3, Entry.num 10, Entry.num 5,
      Entry.num 16, Entry.num 8, Entry.num 4, Entry.num 2, Entry.num 1] [])
    rfl (by decide) (by decide)

/-- Claim C6 counterexample: `full_binary_sequence(6)` returns the
8-character string `"01010000"`, not the claimed `"010101000"`. -/
theorem full_binary_sequence_six_value :
    full_binary_sequence 6 100 = some "01010000" ∧
    "01010000" ≠ "010101000" := by
  constructor
  · decide
  · decide

/-- Claim C6, amended: for `x0 = 6` the step sequence of values is
`6, 3, 10, 5, 16, 8, 4, 2, 1` and `full_binary_sequence(6)` returns the
parity string `"01010000"` (even = 0, odd = 1 at each of the 8
transition steps). -/
theorem six_trajectory_and_binary :
    (List.range 9).map (fun n => iterSteps n 6) = [6, 3, 10, 5, 16, 8, 4, 2, 1] ∧
    full_binary_sequence 6 100 = some "01010000" := by
  constructor
  · decide
  · decide

end CollatzRepo

namespace CollatzRepo

/-! ### The affine transformation accumulator -/

theorem even_step_cast {current : Int} (he : Int.fmod current 2 = 0) :
    ((Int.fdiv current 2 : Int) : ℚ) * 2 = (current : ℚ) := by
  have hdvd : (2 : Int) ∣ current := by
    have := Int.fmod_eq_emod current (by norm_num : (0:Int) ≤ 2)
    rw [this] at he
    exact Int.dvd_of_emod_eq_zero he
  have h2 : Int.fdiv current 2 * 2 = current := by
    rw [Int.fdiv_eq_ediv_of_dvd hdvd]
    exact Int.ediv_mul_cancel hdvd
  exact_mod_cast congrArg (fun z : Int => (z : ℚ)) h2

/-- Loop invariant of `collatz_transformation`: at every iteration the
accumulated transform sends the original value to the current value; at
exit the current value is `1`. -/
theorem transformation_loop_invariant (x0 : ℚ) :
    ∀ (fuel : Nat) (current : Int) (t res : ℚ × ℚ),
      transformation_loop fuel current t = some res →
      t.1 * x0 + t.2 = (current : ℚ) →
      res.1 * x0 + res.2 = 1 := by
  intro fuel
  induction fuel with
  | zero =>
      intro current t res h hinv
      rw [transformation_loop] at h
      split at h
      · obtain rfl := Option.some.inj h
        rw [hinv]
        norm_num [show current = 1 by assumption]
      · exact absurd h (by simp)
  | succ fuel ih =>
      intro current t res h hinv
      rw [transformation_loop] at h
      by_cases h1 : current = 1
      · rw [if_pos h1] at h
        obtain rfl := Option.some.inj h
        rw [hinv, h1]
        norm_num
      · rw [if_neg h1] at h
        by_cases he : Int.fmod current 2 = 0
        · rw [if_pos he] at h
          refine ih _ _ _ h ?_
          have hc := even_step_cast he
          show t.1 / 2 * x0 + t.2 / 2 = _
          linarith
        · rw [if_neg he] at h
          refine ih _ _ _ h ?_
          show 3 * t.1 * x0 + (3 * t.2 + 1) = ((3 * current + 1 : Int) : ℚ)
          push_cast
          linarith

/-- The transformation loop terminates whenever the concrete trajectory
reaches `1` within the given fuel. -/
theorem transformation_loop_total :
    ∀ (n : Nat) (current : Int) (t : ℚ × ℚ), iterSteps n current = 1 →
      ∃ res, transformation_loop n current t = some res := by
  intro n
  induction n with
  | zero =>
      intro c t h
      rw [iterSteps] at h
      rw [transformation_loop, if_pos h]
      exact ⟨t, rfl⟩
  | succ n ih =>
      intro c t h
      by_cases h1 : c = 1
      · rw [transformation_loop, if_pos h1]
        exact ⟨t, rfl⟩
      · rw [transformation_loop, if_neg h1]
        have hstep : iterSteps n (collatz_op c).1 = 1 := h
        by_cases he : Int.fmod c 2 = 0
        · rw [if_pos he]
          refine ih _ _ ?_
          rwa [show (collatz_op c).1 = Int.fdiv c 2 from by rw [collatz_op, if_pos he]]
            at hstep
        · rw [if_neg he]
          refine ih _ _ ?_
          rwa [show (collatz_op c).1 = 3 * c + 1 from by rw [collatz_op, if_neg he]]
            at hstep

/-- Claim C4: for every start whose trajectory reaches 1,
`collatz_transformation` terminates with a rational pair `(a, b)` and
every returned pair satisfies `a * x0 + b = 1` exactly. -/
theorem collatz_transformation_fixed_point (x0 : Int) (hx : 1 ≤ x0)
    (h : reaches1 x0) :
    (∃ fuel ab, collatz_transformation x0 fuel = some ab) ∧
    ∀ fuel a b, collatz_transformation x0 fuel = some (a, b) →
      a * (x0 : ℚ) + b = 1 := by
  constructor
  · obtain ⟨n, hn⟩ := h
    obtain ⟨res, hres⟩ := transformation_loop_total n x0 (1, 0) hn
    exact ⟨n, res, hres⟩
  · intro fuel a b hab
    have := transformation_loop_invariant (x0 : ℚ) fuel x0 (1, 0) (a, b) hab
      (by norm_num)
    simpa using this

/-- Claim C4 witness: from `x0 = 6` the transformation loop returns
`(9/64, 5/32)` and indeed `(9/64) * 6 + 5/32 = 1`. -/
theorem collatz_transformation_fixed_point_witness :
    (∃ fuel ab, collatz_transformation 6 fuel = some ab) ∧
    ∀ fuel a b, collatz_transformation 6 fuel = some (a, b) →
      a * ((6 : Int) : ℚ) + b = 1 :=
  collatz_transformation_fixed_point 6 (by norm_num) ⟨8, by decide⟩

end CollatzRepo

namespace CollatzRepo

/-! ### Direct-iteration decomposition lemmas -/

theorem reaches1_of_step {x : Int} (h : reaches1 x) (hx : x ≠ 1) :
    reaches1 ((collatz_op x).1) := by
  obtain ⟨n, hn⟩ := h
  cases n with
  | zero => exact absurd hn hx
  | succ n => exact ⟨n, hn⟩

theorem stepsTo_succ {x : Int} (h : reaches1 x) (hx : x ≠ 1) :
    Nat.find h = Nat.find (reaches1_of_step h hx) + 1 := by
  have h' := reaches1_of_step h hx
  have h1 : iterSteps (Nat.find h' + 1) x = 1 := Nat.find_spec h'
  have hle : Nat.find h ≤ Nat.find h' + 1 := Nat.find_min' h h1
  have hne : Nat.find h ≠ 0 := by
    intro h0
    have hsp := Nat.find_spec h
    rw [h0] at hsp
    exact hx hsp
  obtain ⟨m, hm⟩ : ∃ m, Nat.find h = m + 1 := ⟨Nat.find h - 1, by omega⟩
  have h2 : iterSteps m ((collatz_op x).1) = 1 := by
    have hsp := Nat.find_spec h
    rw [hm] at hsp
    exact hsp
  have hle2 : Nat.find h' ≤ m := Nat.find_min' h' h2
  omega

theorem directList_one (h : reaches1 1) : directList 1 h = [1] := by
  have h0 : Nat.find h = 0 := (Nat.find_eq_zero h).mpr rfl
  rw [directList, h0]
  rfl

theorem directList_cons {x : Int} (h : reaches1 x) (hx : x ≠ 1) :
    directList x h
      = x :: directList (collatz_op x).1 (reaches1_of_step h hx) := by
  rw [directList, directList, stepsTo_succ h hx, List.range_succ_eq_map,
    List.map_cons, List.map_map]
  rfl

theorem directList_getLast (x : Int) (h : reaches1 x) :
    (directList x h).getLast? = some 1 := by
  have hspec : iterSteps (Nat.find h) x = 1 := Nat.find_spec h
  rw [directList, List.range_succ, List.map_append]
  simp [hspec]

/-! ### The loop refines the direct iteration -/

theorem collatz_loop_expands (cache : Cache) (hg : GoodCache cache)
    (start : Int) (restrict : Bool) :
    ∀ (fuel : Nat) (x : Int) (seq : List Entry) (h : reaches1 x),
      collatz_loop start cache restrict fuel x = some seq →
      Expands cache seq (directList x h) := by
  intro fuel
  induction fuel with
  | zero =>
      intro x seq h hl
      rw [collatz_loop] at hl
      split at hl
      · obtain rfl := (Option.some.inj hl).symm
        subst (by assumption : x = 1)
        rw [directList_one]
        exact Expands.num Expands.nil
      · split at hl
        · obtain rfl := (Option.some.inj hl).symm
          rename_i hcond
          obtain ⟨s, hs⟩ := Option.isSome_iff_exists.mp hcond.1
          obtain ⟨h', hex⟩ := hg x s hs
          refine Expands.backref hs ?_
          rw [List.append_nil]
          exact hex
        · exact absurd hl (by simp)
  | succ fuel ih =>
      intro x seq h hl
      rw [collatz_loop] at hl
      split at hl
      · obtain rfl := (Option.some.inj hl).symm
        subst (by assumption : x = 1)
        rw [directList_one]
        exact Expands.num Expands.nil
      · split at hl
        · obtain rfl := (Option.some.inj hl).symm
          rename_i hcond
          obtain ⟨s, hs⟩ := Option.isSome_iff_exists.mp hcond.1
          obtain ⟨h', hex⟩ := hg x s hs
          refine Expands.backref hs ?_
          rw [List.append_nil]
          exact hex
        · rename_i hx1 _
          cases hs : collatz_loop start cache restrict fuel (collatz_op x).1 with
          | none => rw [hs] at hl; exact absurd hl (by simp)
          | some s' =>
              rw [hs] at hl
              simp only [Option.map_some'] at hl
              obtain rfl := (Option.some.inj hl).symm
              rw [directList_cons h hx1]
              exact Expands.num (ih (collatz_op x).1 s' (reaches1_of_step h hx1) hs)

theorem collatz_loop_total (start : Int) (cache : Cache) (restrict : Bool) :
    ∀ (n : Nat) (x : Int), iterSteps n x = 1 →
      ∃ seq, collatz_loop start cache restrict n x = some seq := by
  intro n
  induction n with
  | zero =>
      intro x h
      rw [collatz_loop, if_pos (show x = 1 from h)]
      exact ⟨_, rfl⟩
  | succ n ih =>
      intro x h
      rw [collatz_loop]
      by_cases h1 : x = 1
      · rw [if_pos h1]
        exact ⟨_, rfl⟩
      · rw [if_neg h1]
        by_cases h2 : (Cache.find cache x).isSome ∧ (restrict = false ∨ x < start)
        · rw [if_pos h2]
          exact ⟨_, rfl⟩
        · rw [if_neg h2]
          obtain ⟨s, hs⟩ := ih ((collatz_op x).1) h
          rw [hs]
          exact ⟨_, rfl⟩

/-- Claim C3: for every `x0 >= 1` whose trajectory reaches 1 and every
cache satisfying the spec's cache invariant, the unrestricted-mode call
terminates, and its output, once every backreference marker is expanded
by following the cache, is exactly the sequence obtained by iterating
`collatz_op` from `x0`, which ends in `1`. -/
theorem collatz_unrestricted_refines (x0 : Int) (cache : Cache)
    (hx : 1 ≤ x0) (h : reaches1 x0) (hg : GoodCache cache) :
    (∃ fuel seq cache2,
      collatz fuel x0 cache false = some (CollatzOut.ok seq cache2)) ∧
    ∀ fuel seq cache2,
      collatz fuel x0 cache false = some (CollatzOut.ok seq cache2) →
      Expands cache seq (directList x0 h) ∧
        (directList x0 h).getLast? = some 1 := by
  constructor
  · obtain ⟨n, hn⟩ := h
    obtain ⟨seq, hseq⟩ := collatz_loop_total x0 cache false n x0 hn
    refine ⟨n, seq, writeSuffixes seq cache, ?_⟩
    rw [collatz, if_neg (by omega), hseq]
    rfl
  · intro fuel seq cache2 hcall
    rw [collatz, if_neg (by omega)] at hcall
    cases hl : collatz_loop x0 cache false fuel x0 with
    | none => rw [hl] at hcall; exact absurd hcall (by simp)
    | some s =>
        rw [hl] at hcall
        simp only [Option.map_some'] at hcall
        obtain ⟨hs, _⟩ := CollatzOut.ok.inj (Option.some.inj hcall)
        subst hs
        exact ⟨collatz_loop_expands cache hg x0 false fuel x0 s h hl,
          directList_getLast x0 h⟩

/-- The trajectory of `6` reaches `1` in eight steps. -/
theorem six_reaches : reaches1 6 := ⟨8, by decide⟩

/-- Claim C3 witness: the concrete run from `x0 = 6` with the empty
cache. -/
theorem collatz_unrestricted_refines_witness :
    (∃ fuel seq cache2,
      collatz fuel 6 [] false = some (CollatzOut.ok seq cache2)) ∧
    ∀ fuel seq cache2,
      collatz fuel 6 [] false = some (CollatzOut.ok seq cache2) →
      Expands [] seq (directList 6 six_reaches) ∧
        (directList 6 six_reaches).getLast? = some 1 :=
  collatz_unrestricted_refines 6 [] (by norm_num) six_reaches
    (fun _ _ hks => Option.noConfusion hks)

end CollatzRepo

namespace CollatzRepo

/-! ### The session cache invariant is preserved by every `collatz` call -/

/-- Expansion derivations survive any cache extension that keeps every
existing binding intact. -/
theorem Expands_mono {c c' : Cache}
    (hsub : ∀ k v, Cache.find c k = some v → Cache.find c' k = some v) :
    ∀ {s l}, Expands c s l → Expands c' s l := by
  intro s l hder
  induction hder with
  | nil => exact Expands.nil
  | num _ ih => exact Expands.num ih
  | backref hf _ ih => exact Expands.backref (hsub _ _ hf) ih

/-- In unrestricted mode every plain integer the loop emits was absent
from the cache, and `1` can only be the final element. -/
theorem collatz_loop_fresh (start : Int) (cache : Cache) :
    ∀ (fuel : Nat) (x : Int) (seq : List Entry),
      collatz_loop start cache false fuel x = some seq →
      ∀ n rest, (Entry.num n :: rest) <:+ seq →
        (n = 1 → rest = []) ∧ (n ≠ 1 → Cache.find cache n = none) := by
  intro fuel
  induction fuel with
  | zero =>
      intro x seq hl n rest hsuf
      rw [collatz_loop] at hl
      split at hl
      · obtain rfl := (Option.some.inj hl).symm
        rcases List.suffix_cons_iff.mp hsuf with heq | hnil
        · obtain ⟨rfl, rfl⟩ : n = 1 ∧ rest = [] := by
            have := List.cons.inj heq
            exact ⟨Entry.num.inj this.1, this.2⟩
          exact ⟨fun _ => rfl, fun hne => absurd rfl hne⟩
        · exact absurd (List.suffix_nil.mp hnil) (by simp)
      · split at hl
        · obtain rfl := (Option.some.inj hl).symm
          rcases List.suffix_cons_iff.mp hsuf with heq | hnil
          · exact absurd (List.cons.inj heq).1 (by simp)
          · exact absurd (List.suffix_nil.mp hnil) (by simp)
        · exact absurd hl (by simp)
  | succ fuel ih =>
      intro x seq hl n rest hsuf
      rw [collatz_loop] at hl
      split at hl
      · obtain rfl := (Option.some.inj hl).symm
        rcases List.suffix_cons_iff.mp hsuf with heq | hnil
        · obtain ⟨rfl, rfl⟩ : n = 1 ∧ rest = [] := by
            have := List.cons.inj heq
            exact ⟨Entry.num.inj this.1, this.2⟩
          exact ⟨fun _ => rfl, fun hne => absurd rfl hne⟩
        · exact absurd (List.suffix_nil.mp hnil) (by simp)
      · split at hl
        · obtain rfl := (Option.some.inj hl).symm
          rcases List.suffix_cons_iff.mp hsuf with heq | hnil
          · exact absurd (List.cons.inj heq).1 (by simp)
          · exact absurd (List.suffix_nil.mp hnil) (by simp)
        · rename_i hx1 hcond
          cases hs : collatz_loop start cache false fuel (collatz_op x).1 with
          | none => rw [hs] at hl; exact absurd hl (by simp)
          | some s' =>
              rw [hs] at hl
              simp only [Option.map_some'] at hl
              obtain rfl := (Option.some.inj hl).symm
              rcases List.suffix_cons_iff.mp hsuf with heq | htail
              · obtain ⟨rfl, rfl⟩ : n = x ∧ rest = s' := by
                  have := List.cons.inj heq
                  exact ⟨Entry.num.inj this.1, this.2⟩
                refine ⟨fun h1 => absurd h1 hx1, fun _ => ?_⟩
                rw [← Option.not_isSome_iff_eq_none]
                intro hsome
                exact hcond ⟨hsome, Or.inl rfl⟩
              · exact ih (collatz_op x).1 s' hs n rest htail

/-- Every plain-integer-headed suffix of a loop output is itself a
faithful compacted trajectory: its head reaches `1` and it expands to
the direct iteration sequence of its head. -/
theorem collatz_loop_expands_strong (cache : Cache) (hg : GoodCache cache)
    (start : Int) (restrict : Bool) :
    ∀ (fuel : Nat) (x : Int) (seq : List Entry),
      collatz_loop start cache restrict fuel x = some seq →
      (∃ hx : reaches1 x, Expands cache seq (directList x hx)) ∧
      (∀ n rest, (Entry.num n :: rest) <:+ seq →
        ∃ hn : reaches1 n,
          Expands cache (Entry.num n :: rest) (directList n hn)) := by
  intro fuel
  induction fuel with
  | zero =>
      intro x seq hl
      rw [collatz_loop] at hl
      split at hl
      · obtain rfl := (Option.some.inj hl).symm
        rename_i hx1
        subst hx1
        have h1 : reaches1 (1 : Int) := ⟨0, rfl⟩
        have hexp : Expands cache [Entry.num 1] (directList 1 h1) := by
          rw [directList_one]
          exact Expands.num Expands.nil
        refine ⟨⟨h1, hexp⟩, ?_⟩
        intro n rest hsuf
        rcases List.suffix_cons_iff.mp hsuf with heq | hnil
        · obtain ⟨rfl, rfl⟩ : n = 1 ∧ rest = [] := by
            have := List.cons.inj heq
            exact ⟨Entry.num.inj this.1, this.2⟩
          exact ⟨h1, hexp⟩
        · exact absurd (List.suffix_nil.mp hnil) (by simp)
      · split at hl
        · obtain rfl := (Option.some.inj hl).symm
          rename_i hcond
          obtain ⟨s, hs⟩ := Option.isSome_iff_exists.mp hcond.1
          obtain ⟨h', hex⟩ := hg x s hs
          refine ⟨⟨h', Expands.backref hs (by rw [List.append_nil]; exact hex)⟩, ?_⟩
          intro n rest hsuf
          rcases List.suffix_cons_iff.mp hsuf with heq | hnil
          · exact absurd (List.cons.inj heq).1 (by simp)
          · exact absurd (List.suffix_nil.mp hnil) (by simp)
        · exact absurd hl (by simp)
  | succ fuel ih =>
      intro x seq hl
      rw [collatz_loop] at hl
      split at hl
      · obtain rfl := (Option.some.inj hl).symm
        rename_i hx1
        subst hx1
        have h1 : reaches1 (1 : Int) := ⟨0, rfl⟩
        have hexp : Expands cache [Entry.num 1] (directList 1 h1) := by
          rw [directList_one]
          exact Expands.num Expands.nil
        refine ⟨⟨h1, hexp⟩, ?_⟩
        intro n rest hsuf
        rcases List.suffix_cons_iff.mp hsuf with heq | hnil
        · obtain ⟨rfl, rfl⟩ : n = 1 ∧ rest = [] := by
            have := List.cons.inj heq
            exact ⟨Entry.num.inj this.1, this.2⟩
          exact ⟨h1, hexp⟩
        · exact absurd (List.suffix_nil.mp hnil) (by simp)
      · split at hl
        · obtain rfl := (Option.some.inj hl).symm
          rename_i hcond
          obtain ⟨s, hs⟩ := Option.isSome_iff_exists.mp hcond.1
          obtain ⟨h', hex⟩ := hg x s hs
          refine ⟨⟨h', Expands.backref hs (by rw [List.append_nil]; exact hex)⟩, ?_⟩
          intro n rest hsuf
          rcases List.suffix_cons_iff.mp hsuf with heq | hnil
          · exact absurd (List.cons.inj heq).1 (by simp)
          · exact absurd (List.suffix_nil.mp hnil) (by simp)
        · rename_i hx1 _
          cases hs : collatz_loop start cache restrict fuel (collatz_op x).1 with
          | none => rw [hs] at hl; exact absurd hl (by simp)
          | some s' =>
              rw [hs] at hl
              simp only [Option.map_some'] at hl
              obtain rfl := (Option.some.inj hl).symm
              obtain ⟨⟨hstep, hexp'⟩, hsfx⟩ := ih (collatz_op x).1 s' hs
              have hx : reaches1 x := by
                obtain ⟨n, hn⟩ := hstep
                exact ⟨n + 1, hn⟩
              have hexpx : Expands cache (Entry.num x :: s') (directList x hx) := by
                rw [directList_cons hx hx1]
                exact Expands.num hexp'
              refine ⟨⟨hx, hexpx⟩, ?_⟩
              intro n rest hsuf
              rcases List.suffix_cons_iff.mp hsuf with heq | htail
              · obtain ⟨rfl, rfl⟩ : n = x ∧ rest = s' := by
                  have := List.cons.inj heq
                  exact ⟨Entry.num.inj this.1, this.2⟩
                exact ⟨hx, hexpx⟩
              · exact hsfx n rest htail

/-- Anything found in the cache after the write loop is either an
untouched original binding or the suffix of the written sequence that
starts at its own key. -/
theorem writeSuffixes_find :
    ∀ (s : List Entry) (c : Cache) (k : Int) (v : List Entry),
      Cache.find (writeSuffixes s c) k = some v →
      Cache.find c k = some v ∨ (∃ rest, v = Entry.num k :: rest ∧ v <:+ s) := by
  intro s
  induction s with
  | nil => intro c k v h; exact Or.inl h
  | cons e rest ih =>
      intro c k v h
      cases e with
      | num n =>
          rcases ih _ k v h with hfound | ⟨r, hv, hsuf⟩
          · by_cases hk : k = n
            · subst hk
              rw [find_insert_self] at hfound
              obtain rfl : v = Entry.num k :: rest := (Option.some.inj hfound).symm
              exact Or.inr ⟨rest, rfl, List.suffix_rfl⟩
            · rw [find_insert_ne c _ hk] at hfound
              exact Or.inl hfound
          · exact Or.inr ⟨r, hv, hsuf.trans (List.suffix_cons _ _)⟩
      | backref w =>
          rcases ih _ k v h with hfound | ⟨r, hv, hsuf⟩
          · exact Or.inl hfound
          · exact Or.inr ⟨r, hv, hsuf.trans (List.suffix_cons _ _)⟩

/-- The write loop never disturbs a binding that was already present,
as long as every key it writes was either absent or already bound to
exactly the suffix being written. -/
theorem writeSuffixes_keeps_orig (c0 : Cache) :
    ∀ (s : List Entry) (c : Cache),
      (∀ k v, Cache.find c0 k = some v → Cache.find c k = some v) →
      (∀ n rest, (Entry.num n :: rest) <:+ s →
        Cache.find c0 n = none ∨ Cache.find c0 n = some (Entry.num n :: rest)) →
      ∀ k v, Cache.find c0 k = some v → Cache.find (writeSuffixes s c) k = some v := by
  intro s
  induction s with
  | nil => intro c hagree _ k v hk; exact hagree k v hk
  | cons e rest ih =>
      intro c hagree hfresh k v hk
      cases e with
      | num n =>
          refine ih _ ?_ (fun m r hsuf => hfresh m r (hsuf.trans (List.suffix_cons _ _)))
            k v hk
          intro k' v' hk'
          by_cases hkn : k' = n
          · subst hkn
            rcases hfresh k' rest List.suffix_rfl with hnone | hsome
            · rw [hnone] at hk'
              exact absurd hk' (by simp)
            · rw [hsome] at hk'
              rw [find_insert_self]
              exact hk'
          · rw [find_insert_ne c _ hkn]
            exact hagree k' v' hk'
      | backref w =>
          exact ih _ hagree
            (fun m r hsuf => hfresh m r (hsuf.trans (List.suffix_cons _ _))) k v hk

/-- Every `collatz` call preserves the session cache invariant: a cache
whose entries are all faithful compacted trajectories (and whose entry
at key `1`, if any, is `[1]`) stays that way, so the hypothesis of the
refinement theorem holds for every cache reachable in a session that
starts from the empty cache. -/
theorem collatz_preserves_session_inv (fuel : Nat) (x : Int) (cache : Cache)
    (restrict : Bool) (seq : List Entry) (cache2 : Cache)
    (hg : GoodCache cache)
    (h1 : Cache.find cache 1 = none ∨ Cache.find cache 1 = some [Entry.num 1])
    (h : collatz fuel x cache restrict = some (CollatzOut.ok seq cache2)) :
    GoodCache cache2 ∧
      (Cache.find cache2 1 = none ∨ Cache.find cache2 1 = some [Entry.num 1]) := by
  rw [collatz] at h
  split at h
  · exact absurd (Option.some.inj h) (by simp)
  · cases hl : collatz_loop x cache restrict fuel x with
    | none => rw [hl] at h; exact absurd h (by simp)
    | some s =>
        rw [hl] at h
        simp only [Option.map_some'] at h
        obtain ⟨hseq, hcache⟩ := CollatzOut.ok.inj (Option.some.inj h)
        obtain rfl : s = seq := hseq
        cases restrict with
        | true =>
            rw [if_pos rfl] at hcache
            subst hcache
            exact ⟨hg, h1⟩
        | false =>
            rw [if_neg Bool.false_ne_true] at hcache
            subst hcache
            have hfresh := collatz_loop_fresh x cache fuel x s hl
            have hfresh' : ∀ n rest, (Entry.num n :: rest) <:+ s →
                Cache.find cache n = none ∨
                  Cache.find cache n = some (Entry.num n :: rest) := by
              intro n rest hsuf
              by_cases hn1 : n = 1
              · subst hn1
                rw [(hfresh 1 rest hsuf).1 rfl]
                exact h1
              · exact Or.inl ((hfresh n rest hsuf).2 hn1)
            have hkeep : ∀ k v, Cache.find cache k = some v →
                Cache.find (writeSuffixes s cache) k = some v :=
              writeSuffixes_keeps_orig cache s cache (fun _ _ hk => hk) hfresh'
            constructor
            · intro k s' hks
              rcases writeSuffixes_find s cache k s' hks with hold | ⟨r, hv, hsuf⟩
              · obtain ⟨hk, hex⟩ := hg k s' hold
                exact ⟨hk, Expands_mono hkeep hex⟩
              · subst hv
                obtain ⟨hk, hex⟩ := (collatz_loop_expands_strong cache hg x false
                  fuel x s hl).2 k r hsuf
                exact ⟨hk, Expands_mono hkeep hex⟩
            · cases hc2 : Cache.find (writeSuffixes s cache) 1 with
              | none => exact Or.inl rfl
              | some v =>
                  refine Or.inr ?_
                  rcases writeSuffixes_find s cache 1 v hc2 with hold | ⟨r, hv, hsuf⟩
                  · rcases h1 with hnone | hone
                    · rw [hnone] at hold
                      exact absurd hold (by simp)
                    · exact hold.symm.trans hone
                  · subst hv
                    have hr : r = [] := (hfresh 1 r hsuf).1 rfl
                    subst hr
                    rfl
end CollatzRepo
